import Mathlib

/-!
Shallow embedding of `src/lib.rs` (crate `wake-queue`): a lock-free
multi-producer waker queue built from two atomic pointers (`head`, `tail`)
into a singly linked chain of heap-allocated `WakerNode`s.

The embedding gives the sequential (single-thread / exclusive-access)
semantics of the operations.  Raw pointers become `Option Nat` addresses
into an explicit association-list heap; `Box::into_raw` is allocation at a
fresh address, `Box::from_raw` followed by `drop` is removal from the heap.
Wakers are opaque and modelled as `Nat` identifiers; invoking a waker
appends its identifier to an output trace.  Loops that can only terminate
through the action of another thread (the CAS retry loop in `register`, the
two spin loops in `wake_all`) return `none` ("divergence") in the states
where they would spin forever when run with exclusive access; heap accesses
through dangling pointers (which would be UB in the source) also return
`none`.
-/

/-- One heap cell; mirrors `struct WakerNode { next: AtomicPtr<WakerNode>, waker: Option<Waker> }`.
`next = none` is the null pointer; `waker` holds the (opaque) waker id until taken. -/
structure WakerNode where
  next : Option Nat
  waker : Option Nat
deriving DecidableEq

/-- The memory holding the nodes: an association list from addresses to nodes. -/
abbrev Heap := List (Nat × WakerNode)

/-- Read the cell at address `a` (first binding wins). -/
def heapGet : Heap → Nat → Option WakerNode
  | [], _ => none
  | (b, n) :: h, a => if a = b then some n else heapGet h a

/-- Write the cell at address `a` (update in place, or append if absent). -/
def heapSet : Heap → Nat → WakerNode → Heap
  | [], a, n => [(a, n)]
  | (b, m) :: h, a, n => if a = b then (a, n) :: h else (b, m) :: heapSet h a n

/-- Deallocate the cell at address `a`. -/
def heapErase : Heap → Nat → Heap
  | [], _ => []
  | (b, m) :: h, a => if b = a then heapErase h a else (b, m) :: heapErase h a

/-- The queue together with its memory; mirrors
`struct WakerQueue { head: AtomicPtr<WakerNode>, tail: AtomicPtr<WakerNode> }`
plus the heap the pointers point into and a fresh-allocation counter. -/
structure WakerQueue where
  head : Option Nat
  tail : Option Nat
  heap : Heap
  nextAlloc : Nat
deriving DecidableEq

/-- Model of `WakerQueue::new()`: both pointers null, no node allocated. -/
def WakerQueue.new : WakerQueue :=
  { head := none, tail := none, heap := [], nextAlloc := 0 }

/-- Model of `WakerQueue::register(waker)`.  Allocates a fresh node `{ next: null, waker: Some(w) }`,
swaps it into `tail`, then either links it behind the previous tail or (when the previous
tail was null) compare-and-swaps `head` from null to it.  Sequentially a failed CAS
repeats forever, so the `head ≠ null` case of the null-tail branch is divergence (`none`);
a dangling previous tail (impossible in well-formed states) is also `none`. -/
def WakerQueue.register (q : WakerQueue) (w : Nat) : Option WakerQueue :=
  let node := q.nextAlloc
  let h1 := heapSet q.heap node { next := none, waker := some w }
  match q.tail with
  | some prev =>
    match heapGet h1 prev with
    | none => none
    | some pn =>
      some { head := q.head, tail := some node,
             heap := heapSet h1 prev { pn with next := some node },
             nextAlloc := node + 1 }
  | none =>
    if q.head = none then
      some { head := some node, tail := some node, heap := h1, nextAlloc := node + 1 }
    else
      none

/-- The traversal loop of `wake_all`, with fuel.  `n` is the node just taken out of the
heap (the current `Box`), `cur` its address, `t` the captured tail address, `acc` the
wakers invoked so far.  A null `next` while `cur ≠ t` is the spin-wait on a racing
producer — divergence when run with exclusive access. -/
def wakeWalk : Nat → Heap → WakerNode → Nat → Nat → List Nat → Option (Heap × List Nat)
  | 0, _, _, _, _, _ => none
  | fuel + 1, h, n, cur, t, acc =>
    if cur = t then some (h, acc)
    else
      match n.next with
      | none => none
      | some nxt =>
        match heapGet h nxt with
        | none => none
        | some nn => wakeWalk fuel (heapErase h nxt) nn nxt t (acc ++ nn.waker.toList)

/-- Model of `WakerQueue::wake_all()`.  Swaps `tail` to null; if the captured tail is null the
queue was empty and the call returns at once.  Otherwise it swaps `head` to null
(spinning while null — divergence with exclusive access), takes the head node,
invokes its waker, and walks `next` pointers invoking and freeing until the captured
tail's address is reached.  Returns the final queue and the invocation trace. -/
def WakerQueue.wake_all (q : WakerQueue) : Option (WakerQueue × List Nat) :=
  match q.tail with
  | none => some ({ q with tail := none }, [])
  | some t =>
    match q.head with
    | none => none
    | some hd =>
      match heapGet q.heap hd with
      | none => none
      | some n =>
        let h := heapErase q.heap hd
        match wakeWalk (h.length + 1) h n hd t n.waker.toList with
        | none => none
        | some (h', acc) =>
          some ({ head := none, tail := none, heap := h', nextAlloc := q.nextAlloc }, acc)

/-- Outcome of `Drop for WakerQueue`: either normal completion with the final heap,
the list of freed addresses and the list of wakers invoked (teardown never invokes
a waker, so the last list never grows), or the `unreachable!` panic. -/
inductive DropResult where
  | ok (heap : Heap) (freed : List Nat) (invoked : List Nat)
  | panicked
deriving DecidableEq

/-- The traversal loop of `Drop for WakerQueue`, with fuel: while `head != tail`,
panic if `head` is null, otherwise free the head node and advance to its `next`;
on loop exit free the remaining node if non-null. -/
def dropWalk : Nat → Heap → Option Nat → Option Nat → List Nat → List Nat → Option DropResult
  | 0, _, _, _, _, _ => none
  | fuel + 1, h, hd, tl, freed, inv =>
    if hd = tl then
      match hd with
      | none => some (DropResult.ok h freed inv)
      | some a =>
        match heapGet h a with
        | none => none
        | some _ => some (DropResult.ok (heapErase h a) (freed ++ [a]) inv)
    else
      match hd with
      | none => some DropResult.panicked
      | some a =>
        match heapGet h a with
        | none => none
        | some n => dropWalk fuel (heapErase h a) n.next tl (freed ++ [a]) inv

/-- Model of `Drop for WakerQueue`: swap `head` to null, load `tail`, then run the teardown
traversal. -/
def WakerQueue.drop (q : WakerQueue) : Option DropResult :=
  dropWalk (q.heap.length + 1) q.heap q.head q.tail [] []

/-- A sequence of `register` calls (no interleaved drain). -/
def WakerQueue.registerAll (q : WakerQueue) : List Nat → Option WakerQueue
  | [] => some q
  | w :: ws =>
    match q.register w with
    | none => none
    | some q' => q'.registerAll ws

/-- One client operation on the queue. -/
inductive Op where
  | register (w : Nat)
  | wake
deriving DecidableEq

/-- The wakers registered by a sequence of operations, in order. -/
def registeredList : List Op → List Nat
  | [] => []
  | Op.register w :: ops => w :: registeredList ops
  | Op.wake :: ops => registeredList ops

/-- Run a sequence of operations from a state, collecting every waker invocation. -/
def runOps : WakerQueue → List Op → Option (WakerQueue × List Nat)
  | q, [] => some (q, [])
  | q, Op.register w :: ops =>
    match q.register w with
    | none => none
    | some q' => runOps q' ops
  | q, Op.wake :: ops =>
    match q.wake_all with
    | none => none
    | some (q', out) =>
      match runOps q' ops with
      | none => none
      | some (q'', out') => some (q'', out ++ out')

/-- Mirror of `std::sync::atomic::Ordering`. -/
inductive MemOrdering where
  | Relaxed
  | Release
  | Acquire
  | AcqRel
  | SeqCst
deriving DecidableEq

/-- Whether an ordering is at least as strong as `Release` on the store side. -/
def atLeastRelease : MemOrdering → Bool
  | MemOrdering.Release => true
  | MemOrdering.AcqRel => true
  | MemOrdering.SeqCst => true
  | _ => false

/-- Whether an ordering is at least as strong as `Acquire` on the load side. -/
def atLeastAcquire : MemOrdering → Bool
  | MemOrdering.Acquire => true
  | MemOrdering.AcqRel => true
  | MemOrdering.SeqCst => true
  | _ => false

/-- Ordering of `self.tail.swap(node, ...)` in `register` (src/lib.rs line 76). -/
def register_tail_swap_ordering : MemOrdering := MemOrdering.Relaxed

/-- Ordering of `prev.next.store(node, ...)` in `register` (src/lib.rs line 80). -/
def register_next_store_ordering : MemOrdering := MemOrdering.Relaxed

/-- Success ordering of the `head` compare-exchange in `register` (src/lib.rs line 92). -/
def register_head_cas_success_ordering : MemOrdering := MemOrdering.Relaxed

/-- Failure ordering of the `head` compare-exchange in `register` (src/lib.rs line 93). -/
def register_head_cas_failure_ordering : MemOrdering := MemOrdering.Relaxed

/-- Ordering of `self.tail.swap(null, ...)` in `wake_all` (src/lib.rs line 110). -/
def wake_all_tail_swap_ordering : MemOrdering := MemOrdering.Relaxed

/-- Ordering of `self.head.swap(null, ...)` in `wake_all` (src/lib.rs lines 119 and 126). -/
def wake_all_head_swap_ordering : MemOrdering := MemOrdering.Relaxed

/-- Ordering of `head.next.load(...)` in `wake_all` (src/lib.rs line 135). -/
def wake_all_next_load_ordering : MemOrdering := MemOrdering.Relaxed

theorem heapGet_set (h : Heap) (a b : Nat) (n : WakerNode) :
    heapGet (heapSet h a n) b = if b = a then some n else heapGet h b := by
  induction h with
  | nil => by_cases hb : b = a <;> simp [heapSet, heapGet, hb]
  | cons p h ih =>
    obtain ⟨c, m⟩ := p
    by_cases hac : a = c
    · subst hac
      by_cases hb : b = a <;> simp [heapSet, heapGet, hb]
    · by_cases hb : b = c
      · subst hb
        have hba : ¬ b = a := fun hh => hac hh.symm
        simp [heapSet, heapGet, hac, hba]
      · simp [heapSet, heapGet, hac, hb, ih]

theorem heapGet_erase (h : Heap) (a b : Nat) :
    heapGet (heapErase h a) b = if b = a then none else heapGet h b := by
  induction h with
  | nil => by_cases hb : b = a <;> simp [heapErase, heapGet, hb]
  | cons p h ih =>
    obtain ⟨c, m⟩ := p
    by_cases hca : c = a
    · subst hca
      by_cases hb : b = c
      · subst hb
        simp [heapErase, ih]
      · simp [heapErase, heapGet, hb, ih]
    · by_cases hb : b = c
      · subst hb
        have hba : ¬ b = a := hca
        simp [heapErase, heapGet, hca, hba]
      · simp [heapErase, heapGet, hca, hb, ih]

theorem mem_keys_of_get (h : Heap) (a : Nat) (hs : (heapGet h a).isSome) :
    a ∈ h.map Prod.fst := by
  induction h with
  | nil => simp [heapGet] at hs
  | cons p h ih =>
    obtain ⟨c, m⟩ := p
    by_cases hac : a = c
    · simp [hac]
    · simp only [heapGet, hac, if_false] at hs
      simpa using Or.inr (ih hs)

theorem length_le_of_nodup_get (addrs : List Nat) (h : Heap) (hnd : addrs.Nodup)
    (hp : ∀ a ∈ addrs, (heapGet h a).isSome) : addrs.length ≤ h.length := by
  have hsub : addrs ⊆ h.map Prod.fst := fun a ha => mem_keys_of_get h a (hp a ha)
  have hle := (List.subperm_of_subset hnd hsub).length_le
  simpa using hle

/-- Chain predicate: `WakerChain h p addrs ws` states that, starting from pointer `p`, the heap `h` holds a
null-terminated chain of nodes at addresses `addrs` whose wakers are `ws`. -/
inductive WakerChain : Heap → Option Nat → List Nat → List Nat → Prop where
  | nil (h : Heap) : WakerChain h none [] []
  | cons (h : Heap) (a w : Nat) (next : Option Nat) (addrs ws : List Nat)
      (hget : heapGet h a = some ⟨next, some w⟩)
      (hrest : WakerChain h next addrs ws) :
      WakerChain h (some a) (a :: addrs) (w :: ws)

theorem WakerChain.nil_inv {h : Heap} {p : Option Nat} {ws : List Nat}
    (hc : WakerChain h p [] ws) : p = none ∧ ws = [] := by
  cases hc
  exact ⟨rfl, rfl⟩

theorem WakerChain.cons_inv {h : Heap} {p : Option Nat} {a : Nat} {addrs ws : List Nat}
    (hc : WakerChain h p (a :: addrs) ws) :
    ∃ w next ws', ws = w :: ws' ∧ p = some a ∧
      heapGet h a = some ⟨next, some w⟩ ∧ WakerChain h next addrs ws' := by
  cases hc with
  | cons _ w next _ ws' hget hrest => exact ⟨w, next, ws', rfl, rfl, hget, hrest⟩

theorem WakerChain.congr {h h' : Heap} : ∀ {addrs : List Nat} {p : Option Nat} {ws : List Nat},
    (∀ a ∈ addrs, heapGet h' a = heapGet h a) →
    WakerChain h p addrs ws → WakerChain h' p addrs ws := by
  intro addrs
  induction addrs with
  | nil =>
    intro p ws _ hc
    obtain ⟨hp, hws⟩ := hc.nil_inv
    subst hp
    subst hws
    exact WakerChain.nil h'
  | cons a rest ih =>
    intro p ws hagree hc
    obtain ⟨w, next, ws', rfl, rfl, hget, hrest⟩ := hc.cons_inv
    exact WakerChain.cons h' a w next rest ws'
      (by rw [hagree a (by simp)]; exact hget)
      (ih (fun b hb => hagree b (by simp [hb])) hrest)

theorem WakerChain.present {h : Heap} : ∀ {addrs : List Nat} {p : Option Nat} {ws : List Nat},
    WakerChain h p addrs ws → ∀ a ∈ addrs, (heapGet h a).isSome := by
  intro addrs
  induction addrs with
  | nil =>
    intro p ws _ a ha
    simp at ha
  | cons a rest ih =>
    intro p ws hc b hb
    obtain ⟨w, next, ws', rfl, rfl, hget, hrest⟩ := hc.cons_inv
    rcases List.mem_cons.1 hb with rfl | hb
    · simp [hget]
    · exact ih hrest b hb

theorem WakerChain.length_eq {h : Heap} : ∀ {addrs : List Nat} {p : Option Nat} {ws : List Nat},
    WakerChain h p addrs ws → addrs.length = ws.length := by
  intro addrs
  induction addrs with
  | nil =>
    intro p ws hc
    obtain ⟨-, rfl⟩ := hc.nil_inv
    rfl
  | cons a rest ih =>
    intro p ws hc
    obtain ⟨w, next, ws', rfl, rfl, hget, hrest⟩ := hc.cons_inv
    simpa using ih hrest

theorem WakerChain.last_next_none {h : Heap} :
    ∀ {addrs : List Nat} {p : Option Nat} {ws : List Nat} {t : Nat},
    WakerChain h p addrs ws → addrs.getLast? = some t →
    ∃ wt, heapGet h t = some ⟨none, some wt⟩ := by
  intro addrs
  induction addrs with
  | nil =>
    intro p ws t _ hlast
    simp at hlast
  | cons a rest ih =>
    intro p ws t hc hlast
    obtain ⟨w, next, ws', rfl, rfl, hget, hrest⟩ := hc.cons_inv
    cases rest with
    | nil =>
      simp at hlast
      subst hlast
      obtain ⟨hn, -⟩ := hrest.nil_inv
      subst hn
      exact ⟨w, hget⟩
    | cons b rest' =>
      rw [List.getLast?_cons_cons] at hlast
      exact ih hrest hlast

/-- Well-formedness of a queue state: the heap holds exactly the chain of nodes
reachable from `head`, `tail` points at the last chain node, and all allocated
addresses are below the allocation counter. -/
structure QueueWF (q : WakerQueue) (addrs ws : List Nat) : Prop where
  chain : WakerChain q.heap q.head addrs ws
  tail_eq : q.tail = addrs.getLast?
  dom : ∀ a, (heapGet q.heap a).isSome → a ∈ addrs
  bound : ∀ a ∈ addrs, a < q.nextAlloc
  nodup : addrs.Nodup

theorem WakerChain.snoc {h h2 : Heap} {a w p : Nat} :
    ∀ {addrs : List Nat} {q : Option Nat} {ws : List Nat},
    WakerChain h q addrs ws →
    addrs.Nodup →
    addrs.getLast? = some p →
    (∀ b ∈ addrs, b ≠ p → heapGet h2 b = heapGet h b) →
    (∀ n, heapGet h p = some n → heapGet h2 p = some ⟨some a, n.waker⟩) →
    heapGet h2 a = some ⟨none, some w⟩ →
    WakerChain h2 q (addrs ++ [a]) (ws ++ [w]) := by
  intro addrs
  induction addrs with
  | nil =>
    intro q ws hc hnd hlast hagree hp ha
    simp at hlast
  | cons b rest ih =>
    intro q ws hc hnd hlast hagree hp ha
    obtain ⟨w', next, ws', rfl, rfl, hget, hrest⟩ := hc.cons_inv
    cases rest with
    | nil =>
      simp at hlast
      subst hlast
      obtain ⟨hn, hws⟩ := hrest.nil_inv
      subst hn
      subst hws
      refine WakerChain.cons h2 b w' (some a) [a] [w] ?_ ?_
      · simpa using hp ⟨none, some w'⟩ hget
      · exact WakerChain.cons h2 a w none [] [] ha (WakerChain.nil h2)
    | cons c rest' =>
      rw [List.getLast?_cons_cons] at hlast
      have hbp : b ≠ p := by
        intro hbp
        subst hbp
        exact (List.nodup_cons.1 hnd).1 (List.mem_of_getLast?_eq_some hlast)
      refine WakerChain.cons h2 b w' next ((c :: rest') ++ [a]) (ws' ++ [w]) ?_ ?_
      · rw [hagree b (by simp) hbp]
        exact hget
      · exact ih hrest (List.nodup_cons.1 hnd).2 hlast
          (fun b' hb' hb'p => hagree b' (by simp [hb']) hb'p) hp ha

theorem register_spec (q : WakerQueue) (addrs ws : List Nat) (w : Nat)
    (hwf : QueueWF q addrs ws) :
    ∃ q', q.register w = some q' ∧
      QueueWF q' (addrs ++ [q.nextAlloc]) (ws ++ [w]) ∧
      q'.nextAlloc = q.nextAlloc + 1 ∧
      q'.tail = some q.nextAlloc ∧
      heapGet q'.heap q.nextAlloc = some ⟨none, some w⟩ ∧
      heapGet q.heap q.nextAlloc = none ∧
      (∀ p, q.tail = some p → q'.head = q.head ∧
        ∃ pn, heapGet q.heap p = some pn ∧
          heapGet q'.heap p = some ⟨some q.nextAlloc, pn.waker⟩) ∧
      (q.tail = none → q.head = none ∧ q'.head = some q.nextAlloc) ∧
      (∀ b, b ≠ q.nextAlloc → q.tail ≠ some b →
        heapGet q'.heap b = heapGet q.heap b) := by
  have hfresh : heapGet q.heap q.nextAlloc = none := by
    cases hv : heapGet q.heap q.nextAlloc with
    | none => rfl
    | some n =>
      have hmem := hwf.dom q.nextAlloc (by simp [hv])
      exact absurd (hwf.bound _ hmem) (lt_irrefl _)
  have hnotmem : q.nextAlloc ∉ addrs := fun hmem =>
    absurd (hwf.bound _ hmem) (lt_irrefl _)
  rcases List.eq_nil_or_concat addrs with rfl | ⟨as, p, rfl⟩
  · -- empty queue: tail is null, CAS publishes the node into head
    obtain ⟨hhead, hws⟩ := hwf.chain.nil_inv
    subst hws
    have htail : q.tail = none := by simpa using hwf.tail_eq
    have hreg : q.register w = some
        ⟨some q.nextAlloc, some q.nextAlloc,
          heapSet q.heap q.nextAlloc ⟨none, some w⟩, q.nextAlloc + 1⟩ := by
      simp only [WakerQueue.register, htail, hhead, if_true]
    refine ⟨_, hreg, ?_, rfl, rfl, ?_, hfresh, ?_, ?_, ?_⟩
    · refine ⟨?_, by simp, ?_, ?_, by simp⟩
      · exact WakerChain.cons _ _ w none [] [] (by simp [heapGet_set]) (WakerChain.nil _)
      · intro b hb
        rw [heapGet_set] at hb
        by_cases hba : b = q.nextAlloc
        · simp [hba]
        · simp only [hba, if_false] at hb
          exact absurd (hwf.dom b hb) (by simp)
      · intro b hb
        simp at hb
        simp [hb]
    · simp [heapGet_set]
    · intro p hp
      rw [htail] at hp
      exact absurd hp (by simp)
    · intro _
      exact ⟨hhead, rfl⟩
    · intro b hba _
      simp [heapGet_set, hba]
  · -- non-empty queue: link the new node behind the previous tail
    rw [List.concat_eq_append] at *
    have hlast : (as ++ [p]).getLast? = some p := List.getLast?_concat as
    have htail : q.tail = some p := hwf.tail_eq.trans hlast
    have hpm : p ∈ as ++ [p] := by simp
    have hpa : p ≠ q.nextAlloc := Nat.ne_of_lt (hwf.bound p hpm)
    obtain ⟨wp, hgetp⟩ := hwf.chain.last_next_none hlast
    have hgetp1 : heapGet (heapSet q.heap q.nextAlloc ⟨none, some w⟩) p =
        some ⟨none, some wp⟩ := by
      rw [heapGet_set]
      simp [hpa, hgetp]
    have hreg : q.register w = some
        ⟨q.head, some q.nextAlloc,
          heapSet (heapSet q.heap q.nextAlloc ⟨none, some w⟩) p
            ⟨some q.nextAlloc, some wp⟩, q.nextAlloc + 1⟩ := by
      simp only [WakerQueue.register, htail, hgetp1]
    have hget2 : ∀ b, heapGet (heapSet (heapSet q.heap q.nextAlloc ⟨none, some w⟩) p
        ⟨some q.nextAlloc, some wp⟩) b =
        if b = p then some ⟨some q.nextAlloc, some wp⟩
        else if b = q.nextAlloc then some ⟨none, some w⟩
        else heapGet q.heap b := by
      intro b
      rw [heapGet_set, heapGet_set]
    refine ⟨_, hreg, ?_, rfl, rfl, ?_, hfresh, ?_, ?_, ?_⟩
    · refine ⟨?_, (List.getLast?_concat _).symm, ?_, ?_, ?_⟩
      · refine WakerChain.snoc hwf.chain hwf.nodup hlast ?_ ?_ ?_
        · intro b hb hbp
          rw [hget2]
          have hba : b ≠ q.nextAlloc := Nat.ne_of_lt (hwf.bound b hb)
          simp [hbp, hba]
        · intro n hn
          rw [hgetp] at hn
          injection hn with hn
          subst hn
          rw [hget2]
          simp
        · rw [hget2]
          simp [hpa.symm, Ne.symm hpa]
      · intro b hb
        rw [hget2] at hb
        by_cases hbp : b = p
        · subst hbp
          simp [hpm]
        · by_cases hba : b = q.nextAlloc
          · simp [hba]
          · simp only [hbp, hba, if_false] at hb
            have := hwf.dom b hb
            simp at this ⊢
            tauto
      · intro b hb
        simp only [List.mem_append, List.mem_singleton] at hb
        rcases hb with hb | rfl
        · exact Nat.lt_succ_of_lt (hwf.bound b (by simp [hb]))
        · exact Nat.lt_succ_self _
      · rw [List.nodup_append]
        refine ⟨hwf.nodup, List.nodup_singleton _, ?_⟩
        intro b hb hba
        simp at hba
        subst hba
        exact hnotmem hb
    · rw [hget2]
      simp [Ne.symm hpa]
    · intro p' hp'
      rw [htail] at hp'
      injection hp' with hp'
      subst hp'
      refine ⟨rfl, ⟨none, some wp⟩, hgetp, ?_⟩
      rw [hget2]
      simp
    · intro hn
      rw [htail] at hn
      exact absurd hn (by simp)
    · intro b hba hbt
      have hbp : b ≠ p := by
        intro hbp
        subst hbp
        exact hbt htail
      rw [hget2]
      simp [hbp, hba]

theorem wakeWalk_ok :
    ∀ (rest : List Nat) {ws' : List Nat} {h : Heap} {n : WakerNode} {cur t : Nat}
      (acc : List Nat) (fuel : Nat),
    WakerChain h n.next rest ws' →
    (cur :: rest).getLast? = some t →
    cur ∉ rest →
    rest.Nodup →
    rest.length + 1 ≤ fuel →
    ∃ h', wakeWalk fuel h n cur t acc = some (h', acc ++ ws') ∧
      ∀ b, heapGet h' b = if b ∈ rest then none else heapGet h b := by
  intro rest
  induction rest with
  | nil =>
    intro ws' h n cur t acc fuel hc hlast _ _ hfuel
    obtain ⟨hn, rfl⟩ := hc.nil_inv
    simp at hlast
    subst hlast
    obtain ⟨f, rfl⟩ : ∃ f, fuel = f + 1 := ⟨fuel - 1, by omega⟩
    refine ⟨h, ?_, by simp⟩
    simp [wakeWalk]
  | cons b rest' ih =>
    intro ws' h n cur t acc fuel hc hlast hcur hnd hfuel
    obtain ⟨w', next, ws'', rfl, hnn, hget, hrest⟩ := hc.cons_inv
    rw [List.getLast?_cons_cons] at hlast
    have htm : t ∈ b :: rest' := List.mem_of_getLast?_eq_some hlast
    have hct : cur ≠ t := fun hh => hcur (hh ▸ htm)
    obtain ⟨f, rfl⟩ : ∃ f, fuel = f + 1 := ⟨fuel - 1, by omega⟩
    have hbr : b ∉ rest' := (List.nodup_cons.1 hnd).1
    have hchain' : WakerChain (heapErase h b)
        (WakerNode.mk next (some w')).next rest' ws'' := by
      refine WakerChain.congr ?_ hrest
      intro c hc'
      rw [heapGet_erase]
      have hcb : ¬ c = b := fun hh => hbr (hh ▸ hc')
      simp [hcb]
    obtain ⟨h', hwalk, hprop⟩ := ih (acc ++ [w']) f hchain' hlast hbr
      (List.nodup_cons.1 hnd).2 (by simp at hfuel ⊢; omega)
    refine ⟨h', ?_, ?_⟩
    · simp only [wakeWalk, hct, if_false, hnn, hget, Option.toList_some]
      rw [hwalk]
      simp
    · intro c
      rw [hprop c, heapGet_erase]
      by_cases h1 : c ∈ rest'
      · simp [h1]
      · by_cases h2 : c = b
        · simp [h1, h2]
        · simp [h1, h2]

theorem wake_spec (q : WakerQueue) (addrs ws : List Nat)
    (hwf : QueueWF q addrs ws) (hne : addrs ≠ []) :
    ∃ q', q.wake_all = some (q', ws) ∧ q'.head = none ∧ q'.tail = none ∧
      q'.nextAlloc = q.nextAlloc ∧ (∀ b, heapGet q'.heap b = none) ∧
      QueueWF q' [] [] := by
  cases addrs with
  | nil => exact absurd rfl hne
  | cons a rest =>
    obtain ⟨w, next, ws', rfl, hhead, hget, hrest⟩ := hwf.chain.cons_inv
    obtain ⟨t, hlast⟩ : ∃ t, (a :: rest).getLast? = some t := by
      cases hl : (a :: rest).getLast? with
      | none => simp at hl
      | some t => exact ⟨t, rfl⟩
    have htail : q.tail = some t := hwf.tail_eq.trans hlast
    have hanr : a ∉ rest := (List.nodup_cons.1 hwf.nodup).1
    have hchain' : WakerChain (heapErase q.heap a)
        (WakerNode.mk next (some w)).next rest ws' := by
      refine WakerChain.congr ?_ hrest
      intro c hc'
      rw [heapGet_erase]
      have hca : ¬ c = a := fun hh => hanr (hh ▸ hc')
      simp [hca]
    have hfuel : rest.length + 1 ≤ (heapErase q.heap a).length + 1 := by
      have hle := length_le_of_nodup_get rest (heapErase q.heap a)
        (List.nodup_cons.1 hwf.nodup).2
        (fun b hb => hchain'.present b hb)
      omega
    obtain ⟨h', hwalk, hprop⟩ := wakeWalk_ok rest [w] ((heapErase q.heap a).length + 1)
      hchain' hlast hanr (List.nodup_cons.1 hwf.nodup).2 hfuel
    have hallnone : ∀ b, heapGet h' b = none := by
      intro b
      rw [hprop b, heapGet_erase]
      by_cases h1 : b ∈ rest
      · simp [h1]
      · by_cases h2 : b = a
        · simp [h1, h2]
        · simp only [h1, h2, if_false]
          cases hv : heapGet q.heap b with
          | none => rfl
          | some m =>
            have hmem := hwf.dom b (by simp [hv])
            rcases List.mem_cons.1 hmem with hh | hh
            · exact absurd hh h2
            · exact absurd hh h1
    have hw : q.wake_all = some (⟨none, none, h', q.nextAlloc⟩, w :: ws') := by
      simp only [WakerQueue.wake_all, htail, hhead, hget, Option.toList_some]
      rw [hwalk]
      simp
    refine ⟨_, hw, rfl, rfl, rfl, hallnone, ?_⟩
    refine ⟨WakerChain.nil _, rfl, ?_, ?_, List.nodup_nil⟩
    · intro b hb
      rw [hallnone b] at hb
      simp at hb
    · intro b hb
      simp at hb

theorem wake_all_of_tail_none (q : WakerQueue) (h : q.tail = none) :
    q.wake_all = some (q, []) := by
  cases q with
  | mk hd tl hp na =>
    simp only at h
    subst h
    simp [WakerQueue.wake_all]

/-- The states reachable from `WakerQueue.new` by completed operations. -/
inductive Reachable : WakerQueue → Prop where
  | new : Reachable WakerQueue.new
  | register (q q' : WakerQueue) (w : Nat) (hq : Reachable q)
      (hs : q.register w = some q') : Reachable q'
  | wake (q q' : WakerQueue) (out : List Nat) (hq : Reachable q)
      (hs : q.wake_all = some (q', out)) : Reachable q'

theorem reachable_wf (q : WakerQueue) (hq : Reachable q) :
    ∃ addrs ws, QueueWF q addrs ws := by
  induction hq with
  | new =>
    refine ⟨[], [], WakerChain.nil _, rfl, ?_, ?_, List.nodup_nil⟩
    · intro a ha
      simp [heapGet, WakerQueue.new] at ha
    · intro a ha
      simp at ha
  | register q q' w hq hs ih =>
    obtain ⟨addrs, ws, hwf⟩ := ih
    obtain ⟨q'', hreg, hwf', -⟩ := register_spec q addrs ws w hwf
    rw [hs] at hreg
    injection hreg with hreg
    subst hreg
    exact ⟨_, _, hwf'⟩
  | wake q q' out hq hs ih =>
    obtain ⟨addrs, ws, hwf⟩ := ih
    by_cases hne : addrs = []
    · subst hne
      obtain ⟨-, hws⟩ := hwf.chain.nil_inv
      subst hws
      have htail : q.tail = none := by simpa using hwf.tail_eq
      rw [wake_all_of_tail_none q htail] at hs
      simp only [Option.some.injEq, Prod.mk.injEq] at hs
      obtain ⟨rfl, -⟩ := hs
      exact ⟨[], [], hwf⟩
    · obtain ⟨q'', hw, -, -, -, -, hwf'⟩ := wake_spec q addrs ws hwf hne
      rw [hs] at hw
      simp only [Option.some.injEq, Prod.mk.injEq] at hw
      obtain ⟨rfl, -⟩ := hw
      exact ⟨[], [], hwf'⟩

theorem runOps_register (q q1 : WakerQueue) (w : Nat) (ops : List Op)
    (h : q.register w = some q1) :
    runOps q (Op.register w :: ops) = runOps q1 ops := by
  simp only [runOps]
  rw [h]

theorem runOps_wake (q q1 : WakerQueue) (out1 : List Nat) (ops : List Op)
    (h : q.wake_all = some (q1, out1)) :
    runOps q (Op.wake :: ops) =
      match runOps q1 ops with
      | none => none
      | some (q2, out2) => some (q2, out1 ++ out2) := by
  simp only [runOps]
  rw [h]

theorem runOps_spec :
    ∀ (ops : List Op) (q0 : WakerQueue) (addrs0 ws0 : List Nat),
    QueueWF q0 addrs0 ws0 →
    ∀ q out, runOps q0 ops = some (q, out) →
    ∃ addrs ws, QueueWF q addrs ws ∧ ws0 ++ registeredList ops = out ++ ws := by
  intro ops
  induction ops with
  | nil =>
    intro q0 addrs0 ws0 hwf q out hrun
    simp [runOps] at hrun
    obtain ⟨rfl, rfl⟩ := hrun
    exact ⟨addrs0, ws0, hwf, by simp [registeredList]⟩
  | cons op ops ih =>
    intro q0 addrs0 ws0 hwf q out hrun
    cases op with
    | register w =>
      obtain ⟨q1, hreg, hwf1, -⟩ := register_spec q0 addrs0 ws0 w hwf
      rw [runOps_register q0 q1 w ops hreg] at hrun
      obtain ⟨addrs, ws, hwf', heq⟩ := ih q1 _ _ hwf1 q out hrun
      refine ⟨addrs, ws, hwf', ?_⟩
      simp only [registeredList]
      simpa using heq
    | wake =>
      by_cases hne : addrs0 = []
      · subst hne
        obtain ⟨-, hws0⟩ := hwf.chain.nil_inv
        subst hws0
        have htail : q0.tail = none := by simpa using hwf.tail_eq
        rw [runOps_wake q0 q0 [] ops (wake_all_of_tail_none q0 htail)] at hrun
        cases hrest : runOps q0 ops with
        | none =>
          rw [hrest] at hrun
          simp at hrun
        | some p =>
          obtain ⟨q2, out2⟩ := p
          rw [hrest] at hrun
          simp only [Option.some.injEq, Prod.mk.injEq, List.nil_append] at hrun
          obtain ⟨rfl, rfl⟩ := hrun
          obtain ⟨addrs, ws, hwf', heq⟩ := ih q0 [] [] hwf q2 out2 hrest
          exact ⟨addrs, ws, hwf', by simpa [registeredList] using heq⟩
      · obtain ⟨q1, hw, -, -, -, -, hwf1⟩ := wake_spec q0 addrs0 ws0 hwf hne
        rw [runOps_wake q0 q1 ws0 ops hw] at hrun
        cases hrest : runOps q1 ops with
        | none =>
          rw [hrest] at hrun
          simp at hrun
        | some p =>
          obtain ⟨q2, out2⟩ := p
          rw [hrest] at hrun
          simp only [Option.some.injEq, Prod.mk.injEq] at hrun
          obtain ⟨rfl, rfl⟩ := hrun
          obtain ⟨addrs, ws, hwf', heq⟩ := ih q1 [] [] hwf1 q2 out2 hrest
          refine ⟨addrs, ws, hwf', ?_⟩
          simp only [registeredList]
          simp only [List.nil_append] at heq
          rw [heq, List.append_assoc]

theorem dropWalk_ok :
    ∀ (addrs : List Nat) {ws : List Nat} {h : Heap} {hd : Option Nat}
      (freed inv : List Nat) (fuel : Nat),
    WakerChain h hd addrs ws →
    addrs.Nodup →
    addrs.length + 1 ≤ fuel →
    ∃ h', dropWalk fuel h hd addrs.getLast? freed inv =
        some (DropResult.ok h' (freed ++ addrs) inv) ∧
      ∀ b, heapGet h' b = if b ∈ addrs then none else heapGet h b := by
  intro addrs
  induction addrs with
  | nil =>
    intro ws h hd freed inv fuel hc _ hfuel
    obtain ⟨hhd, -⟩ := hc.nil_inv
    subst hhd
    obtain ⟨f, rfl⟩ : ∃ f, fuel = f + 1 := ⟨fuel - 1, by omega⟩
    refine ⟨h, ?_, by simp⟩
    simp [dropWalk]
  | cons a rest ih =>
    intro ws h hd freed inv fuel hc hnd hfuel
    obtain ⟨w, next, ws', rfl, rfl, hget, hrest⟩ := hc.cons_inv
    obtain ⟨f, rfl⟩ : ∃ f, fuel = f + 1 := ⟨fuel - 1, by omega⟩
    have har : a ∉ rest := (List.nodup_cons.1 hnd).1
    cases rest with
    | nil =>
      obtain ⟨hn, -⟩ := hrest.nil_inv
      subst hn
      refine ⟨heapErase h a, ?_, ?_⟩
      · simp [dropWalk, hget]
      · intro b
        rw [heapGet_erase]
        by_cases hba : b = a <;> simp [hba]
    | cons c rest' =>
      obtain ⟨t, hlt⟩ : ∃ t, (c :: rest').getLast? = some t := by
        cases hl : (c :: rest').getLast? with
        | none => simp at hl
        | some t => exact ⟨t, rfl⟩
      have hat : a ≠ t := fun hh => har (hh ▸ List.mem_of_getLast?_eq_some hlt)
      have hchain' : WakerChain (heapErase h a) next (c :: rest') ws' := by
        refine WakerChain.congr ?_ hrest
        intro d hd'
        rw [heapGet_erase]
        have hda : ¬ d = a := fun hh => har (hh ▸ hd')
        simp [hda]
      obtain ⟨h', hwalk, hprop⟩ := ih (freed ++ [a]) inv f hchain'
        (List.nodup_cons.1 hnd).2 (by simp at hfuel ⊢; omega)
      rw [hlt] at hwalk
      refine ⟨h', ?_, ?_⟩
      · rw [List.getLast?_cons_cons, hlt]
        have hne : ¬ ((some a : Option Nat) = some t) := by simpa using hat
        simp only [dropWalk, hne, if_false, hget]
        rw [hwalk]
        simp
      · intro b
        rw [hprop b, heapGet_erase]
        by_cases h1 : b ∈ c :: rest' <;> by_cases h2 : b = a <;> simp [h1, h2]

theorem dropWalk_panics :
    ∀ (addrs : List Nat) {ws : List Nat} {h : Heap} {hd : Option Nat} {t : Nat}
      (freed inv : List Nat) (fuel : Nat),
    WakerChain h hd addrs ws →
    t ∉ addrs →
    addrs.Nodup →
    addrs.length + 1 ≤ fuel →
    dropWalk fuel h hd (some t) freed inv = some DropResult.panicked := by
  intro addrs
  induction addrs with
  | nil =>
    intro ws h hd t freed inv fuel hc _ _ hfuel
    obtain ⟨hhd, -⟩ := hc.nil_inv
    subst hhd
    obtain ⟨f, rfl⟩ : ∃ f, fuel = f + 1 := ⟨fuel - 1, by omega⟩
    simp [dropWalk]
  | cons a rest ih =>
    intro ws h hd t freed inv fuel hc hmem hnd hfuel
    obtain ⟨w, next, ws', rfl, rfl, hget, hrest⟩ := hc.cons_inv
    obtain ⟨f, rfl⟩ : ∃ f, fuel = f + 1 := ⟨fuel - 1, by omega⟩
    have har : a ∉ rest := (List.nodup_cons.1 hnd).1
    have hat : ¬ ((some a : Option Nat) = some t) := by
      simp only [Option.some.injEq]
      intro hh
      exact hmem (by simp [hh])
    have hchain' : WakerChain (heapErase h a) next rest ws' := by
      refine WakerChain.congr ?_ hrest
      intro d hd'
      rw [heapGet_erase]
      have hda : ¬ d = a := fun hh => har (hh ▸ hd')
      simp [hda]
    simp only [dropWalk, hat, if_false, hget]
    exact ih (freed ++ [a]) inv f hchain'
      (fun hm => hmem (List.mem_cons_of_mem _ hm))
      (List.nodup_cons.1 hnd).2 (by simp at hfuel ⊢; omega)

theorem drop_spec (q : WakerQueue) (addrs ws : List Nat) (hwf : QueueWF q addrs ws) :
    ∃ h', q.drop = some (DropResult.ok h' addrs []) ∧ ∀ b, heapGet h' b = none := by
  have hfuel : addrs.length + 1 ≤ q.heap.length + 1 := by
    have hle := length_le_of_nodup_get addrs q.heap hwf.nodup hwf.chain.present
    omega
  obtain ⟨h', hwalk, hprop⟩ := dropWalk_ok addrs [] [] (q.heap.length + 1)
    hwf.chain hwf.nodup hfuel
  refine ⟨h', ?_, ?_⟩
  · simp only [WakerQueue.drop]
    rw [hwf.tail_eq]
    simpa using hwalk
  · intro b
    rw [hprop b]
    by_cases hb : b ∈ addrs
    · simp [hb]
    · simp only [hb, if_false]
      cases hv : heapGet q.heap b with
      | none => rfl
      | some m => exact absurd (hwf.dom b (by simp [hv])) hb

theorem new_wf : QueueWF WakerQueue.new [] [] := by
  refine ⟨WakerChain.nil _, rfl, ?_, ?_, List.nodup_nil⟩
  · intro a ha
    simp [heapGet, WakerQueue.new] at ha
  · intro a ha
    simp at ha

theorem registerAll_spec :
    ∀ (ws : List Nat) (q : WakerQueue) (addrs cs : List Nat),
    QueueWF q addrs cs →
    ∃ q' addrs', q.registerAll ws = some q' ∧
      QueueWF q' (addrs ++ addrs') (cs ++ ws) := by
  intro ws
  induction ws with
  | nil =>
    intro q addrs cs hwf
    exact ⟨q, [], rfl, by simpa using hwf⟩
  | cons w ws ih =>
    intro q addrs cs hwf
    obtain ⟨q1, hreg, hwf1, -⟩ := register_spec q addrs cs w hwf
    obtain ⟨q', addrs', hall, hwf'⟩ := ih q1 _ _ hwf1
    refine ⟨q', [q.nextAlloc] ++ addrs', ?_, ?_⟩
    · simp only [WakerQueue.registerAll]
      rw [hreg]
      exact hall
    · simpa [List.append_assoc] using hwf'

/-- The structural invariant of the spec: whenever `tail` is non-null, following
`next` references from `head` eventually reaches the node `tail` points at. -/
def tailReachable (q : WakerQueue) : Prop :=
  ∀ t, q.tail = some t →
    ∃ addrs ws, WakerChain q.heap q.head addrs ws ∧ addrs.getLast? = some t

theorem wf_tailReachable (q : WakerQueue) (addrs ws : List Nat)
    (hwf : QueueWF q addrs ws) : tailReachable q := by
  intro t ht
  exact ⟨addrs, ws, hwf.chain, hwf.tail_eq.symm.trans ht⟩

/-- Claim C1: registering the wakers `ws` one after another into a fresh queue (no
interleaved drain) succeeds, and a single subsequent `wake_all` invokes exactly the
wakers `ws`, once each, in the order they were linked into the chain, leaving both
`head` and `tail` null. -/
theorem wake_all_drains_in_order (ws : List Nat) :
    ∃ q q', WakerQueue.new.registerAll ws = some q ∧
      q.wake_all = some (q', ws) ∧ q'.head = none ∧ q'.tail = none := by
  obtain ⟨q, addrs', hall, hwf⟩ := registerAll_spec ws WakerQueue.new [] [] new_wf
  simp only [List.nil_append] at hwf
  cases ws with
  | nil =>
    have hlen := hwf.chain.length_eq
    have haddr : addrs' = [] := List.eq_nil_of_length_eq_zero (by simpa using hlen)
    subst haddr
    have htail : q.tail = none := by simpa using hwf.tail_eq
    have hhead : q.head = none := (hwf.chain.nil_inv).1
    exact ⟨q, q, hall, wake_all_of_tail_none q htail, hhead, htail⟩
  | cons w ws' =>
    have hne : addrs' ≠ [] := by
      intro hh
      subst hh
      obtain ⟨-, hws⟩ := hwf.chain.nil_inv
      simp at hws
    obtain ⟨q', hw, hh, ht, -, -, -⟩ := wake_spec q addrs' (w :: ws') hwf hne
    exact ⟨q, q', hall, hw, hh, ht⟩

/-- Claim C2: contrary to the spec's requirement that publishing operations be at
least `Release` and observing operations at least `Acquire`, every atomic operation
in `register` and `wake_all` uses `Ordering::Relaxed`, which is weaker than what
safe publication of the node contents requires. -/
theorem atomic_orderings_all_relaxed :
    register_tail_swap_ordering = MemOrdering.Relaxed ∧
    register_next_store_ordering = MemOrdering.Relaxed ∧
    register_head_cas_success_ordering = MemOrdering.Relaxed ∧
    register_head_cas_failure_ordering = MemOrdering.Relaxed ∧
    wake_all_tail_swap_ordering = MemOrdering.Relaxed ∧
    wake_all_head_swap_ordering = MemOrdering.Relaxed ∧
    wake_all_next_load_ordering = MemOrdering.Relaxed ∧
    atLeastRelease register_tail_swap_ordering = false ∧
    atLeastRelease register_next_store_ordering = false ∧
    atLeastRelease register_head_cas_success_ordering = false ∧
    atLeastAcquire wake_all_tail_swap_ordering = false ∧
    atLeastAcquire wake_all_head_swap_ordering = false ∧
    atLeastAcquire wake_all_next_load_ordering = false := by
  decide

/-- Claim C3: over any completed sequence of operations from a fresh queue, the
invocation trace is a prefix of the registration trace — so no registration is ever
invoked more than once across successive `wake_all` calls — and a final teardown
invokes nothing. -/
theorem callback_invoked_at_most_once (ops : List Op) (q : WakerQueue) (out : List Nat)
    (hrun : runOps WakerQueue.new ops = some (q, out)) :
    (∃ pending, out ++ pending = registeredList ops) ∧
    (∀ w, out.count w ≤ (registeredList ops).count w) ∧
    (∀ h' freed inv, q.drop = some (DropResult.ok h' freed inv) → inv = []) := by
  obtain ⟨addrs, ws, hwf, heq⟩ := runOps_spec ops WakerQueue.new [] [] new_wf q out hrun
  simp only [List.nil_append] at heq
  refine ⟨⟨ws, heq.symm⟩, ?_, ?_⟩
  · intro w
    rw [heq, List.count_append]
    exact Nat.le_add_right _ _
  · obtain ⟨h2, hdrop, -⟩ := drop_spec q addrs ws hwf
    intro h' freed inv hd
    rw [hdrop] at hd
    simp only [Option.some.injEq, DropResult.ok.injEq] at hd
    exact hd.2.2.symm

theorem callback_invoked_at_most_once_witness :
    runOps WakerQueue.new [Op.register 5, Op.wake] =
      some (⟨none, none, [], 1⟩, [5]) ∧
    ((∃ pending, [5] ++ pending = registeredList [Op.register 5, Op.wake]) ∧
     (∀ w, ([5] : List Nat).count w ≤ (registeredList [Op.register 5, Op.wake]).count w) ∧
     (∀ h' freed inv, WakerQueue.drop ⟨none, none, [], 1⟩ =
        some (DropResult.ok h' freed inv) → inv = [])) :=
  ⟨by decide,
   callback_invoked_at_most_once [Op.register 5, Op.wake] ⟨none, none, [], 1⟩ [5] (by decide)⟩

/-- Claim C4: tearing down a queue that still holds registered-but-undrained
callbacks deallocates all of their nodes (the freed nodes together with the already
invoked ones account for every registration, and the final heap is empty) and
invokes none of them. -/
theorem drop_frees_all_undrained (ops : List Op) (q : WakerQueue) (out : List Nat)
    (hrun : runOps WakerQueue.new ops = some (q, out)) :
    ∃ h' freed, q.drop = some (DropResult.ok h' freed []) ∧
      freed.length + out.length = (registeredList ops).length ∧
      ∀ b, heapGet h' b = none := by
  obtain ⟨addrs, ws, hwf, heq⟩ := runOps_spec ops WakerQueue.new [] [] new_wf q out hrun
  simp only [List.nil_append] at heq
  obtain ⟨h', hdrop, hnone⟩ := drop_spec q addrs ws hwf
  refine ⟨h', addrs, hdrop, ?_, hnone⟩
  have hlen := hwf.chain.length_eq
  rw [heq, List.length_append, hlen]
  omega

theorem drop_frees_all_undrained_witness :
    runOps WakerQueue.new [Op.register 7, Op.register 8] =
      some (⟨some 0, some 1, [(0, ⟨some 1, some 7⟩), (1, ⟨none, some 8⟩)], 2⟩, []) ∧
    ∃ h' freed, WakerQueue.drop
        ⟨some 0, some 1, [(0, ⟨some 1, some 7⟩), (1, ⟨none, some 8⟩)], 2⟩ =
        some (DropResult.ok h' freed []) ∧
      freed.length + ([] : List Nat).length =
        (registeredList [Op.register 7, Op.register 8]).length ∧
      ∀ b, heapGet h' b = none :=
  ⟨by decide,
   drop_frees_all_undrained [Op.register 7, Op.register 8]
     ⟨some 0, some 1, [(0, ⟨some 1, some 7⟩), (1, ⟨none, some 8⟩)], 2⟩ [] (by decide)⟩

/-- Claim C5: `wake_all` on a queue whose tail is null (in particular a freshly
constructed one) invokes zero callbacks, allocates nothing, and leaves the state
unchanged apart from the no-op swap of null over null in `tail`. -/
theorem wake_all_on_empty_queue (q : WakerQueue) (h : q.tail = none) :
    q.wake_all = some (q, []) :=
  wake_all_of_tail_none q h

theorem wake_all_on_empty_queue_witness :
    WakerQueue.new.wake_all = some (WakerQueue.new, []) :=
  wake_all_on_empty_queue WakerQueue.new rfl

/-- Claim C6: if the chain starting at the captured head ends in a null `next`
without ever reaching the address the captured tail holds, teardown hits the
`unreachable!` assertion and panics instead of returning normally. -/
theorem drop_panics_on_broken_chain (q : WakerQueue) (addrs ws : List Nat) (t : Nat)
    (hchain : WakerChain q.heap q.head addrs ws) (hnd : addrs.Nodup)
    (htail : q.tail = some t) (hmem : t ∉ addrs) :
    q.drop = some DropResult.panicked := by
  have hfuel : addrs.length + 1 ≤ q.heap.length + 1 := by
    have hle := length_le_of_nodup_get addrs q.heap hnd hchain.present
    omega
  simp only [WakerQueue.drop]
  rw [htail]
  exact dropWalk_panics addrs [] [] (q.heap.length + 1) hchain hmem hnd hfuel

theorem drop_panics_on_broken_chain_witness :
    WakerQueue.drop ⟨some 0, some 1, [(0, ⟨none, some 3⟩)], 2⟩ =
      some DropResult.panicked :=
  drop_panics_on_broken_chain ⟨some 0, some 1, [(0, ⟨none, some 3⟩)], 2⟩ [0] [3] 1
    (WakerChain.cons _ 0 3 none [] [] rfl (WakerChain.nil _))
    (by decide) rfl (by decide)

/-- Claim C7 counterexample: on a queue whose captured head is null while the tail
read is non-null, teardown does not free a leftover node — it hits the
`unreachable!` assertion and panics. -/
theorem drop_head_null_tail_nonnull_panics :
    WakerQueue.drop ⟨none, some 0, [(0, ⟨none, some 7⟩)], 1⟩ =
      some DropResult.panicked := by
  decide

/-- Claim C7 (amended): the leftover single node freed "rather than failing" is the
one left when the captured head equals the non-null captured tail — the final free
after the traversal loop; when the captured head is null while the tail is non-null,
teardown instead panics. -/
theorem drop_frees_leftover_single_node :
    (∀ (q : WakerQueue) (a : Nat) (n : WakerNode),
      q.head = some a → q.tail = some a → heapGet q.heap a = some n →
      q.drop = some (DropResult.ok (heapErase q.heap a) [a] [])) ∧
    (∀ (q : WakerQueue) (t : Nat), q.head = none → q.tail = some t →
      q.drop = some DropResult.panicked) := by
  constructor
  · intro q a n hh ht hg
    simp only [WakerQueue.drop]
    rw [hh, ht]
    simp [dropWalk, hg]
  · intro q t hh ht
    simp only [WakerQueue.drop]
    rw [hh, ht]
    simp [dropWalk]

theorem drop_frees_leftover_single_node_witness :
    WakerQueue.drop ⟨some 0, some 0, [(0, ⟨none, some 4⟩)], 1⟩ =
      some (DropResult.ok (heapErase [(0, ⟨none, some 4⟩)] 0) [0] []) ∧
    WakerQueue.drop ⟨none, some 5, [], 6⟩ = some DropResult.panicked :=
  ⟨drop_frees_leftover_single_node.1 ⟨some 0, some 0, [(0, ⟨none, some 4⟩)], 1⟩ 0
     ⟨none, some 4⟩ rfl rfl rfl,
   drop_frees_leftover_single_node.2 ⟨none, some 5, [], 6⟩ 5 rfl rfl⟩

/-- Claim C8: `register` allocates exactly one fresh node with null `next` holding
the callback and swaps it into `tail`; if the previous tail was non-null it stores
the new node into that node's `next` (touching nothing else), and if the previous
tail was null it installs the new node into `head` by the compare-and-swap — which,
when `head` is not null (a drain still clearing it), keeps retrying and does not
complete sequentially. -/
theorem register_behavior :
    (∀ (q : WakerQueue) (w : Nat), Reachable q → ∃ q', q.register w = some q' ∧
      q'.nextAlloc = q.nextAlloc + 1 ∧
      q'.tail = some q.nextAlloc ∧
      heapGet q'.heap q.nextAlloc = some ⟨none, some w⟩ ∧
      heapGet q.heap q.nextAlloc = none ∧
      (∀ p, q.tail = some p → q'.head = q.head ∧
        ∃ pn, heapGet q.heap p = some pn ∧
          heapGet q'.heap p = some ⟨some q.nextAlloc, pn.waker⟩) ∧
      (q.tail = none → q'.head = some q.nextAlloc) ∧
      (∀ b, b ≠ q.nextAlloc → q.tail ≠ some b →
        heapGet q'.heap b = heapGet q.heap b)) ∧
    (∀ (q : WakerQueue) (w : Nat), q.tail = none → q.head ≠ none →
      q.register w = none) := by
  constructor
  · intro q w hq
    obtain ⟨addrs, ws, hwf⟩ := reachable_wf q hq
    obtain ⟨q', hreg, -, hna, ht, hget, hfresh, hsome, hnone, hother⟩ :=
      register_spec q addrs ws w hwf
    exact ⟨q', hreg, hna, ht, hget, hfresh, hsome, fun h => (hnone h).2, hother⟩
  · intro q w ht hh
    simp only [WakerQueue.register, ht]
    simp [hh]

theorem register_behavior_witness :
    (∃ q', WakerQueue.new.register 3 = some q' ∧
      q'.nextAlloc = WakerQueue.new.nextAlloc + 1 ∧
      q'.tail = some WakerQueue.new.nextAlloc ∧
      heapGet q'.heap WakerQueue.new.nextAlloc = some ⟨none, some 3⟩ ∧
      heapGet WakerQueue.new.heap WakerQueue.new.nextAlloc = none ∧
      (∀ p, WakerQueue.new.tail = some p → q'.head = WakerQueue.new.head ∧
        ∃ pn, heapGet WakerQueue.new.heap p = some pn ∧
          heapGet q'.heap p = some ⟨some WakerQueue.new.nextAlloc, pn.waker⟩) ∧
      (WakerQueue.new.tail = none → q'.head = some WakerQueue.new.nextAlloc) ∧
      (∀ b, b ≠ WakerQueue.new.nextAlloc → WakerQueue.new.tail ≠ some b →
        heapGet q'.heap b = heapGet WakerQueue.new.heap b)) ∧
    WakerQueue.register ⟨some 0, none, [(0, ⟨none, some 1⟩)], 1⟩ 2 = none :=
  ⟨register_behavior.1 WakerQueue.new 3 Reachable.new,
   register_behavior.2 ⟨some 0, none, [(0, ⟨none, some 1⟩)], 1⟩ 2 rfl (by decide)⟩

/-- Claim C9: the invariant "whenever `tail` is non-null, following `next`
references from `head` reaches the node `tail` points at" holds for the freshly
constructed queue and is preserved by every completed `register` and every
completed `wake_all` starting from any reachable state. -/
theorem structural_invariant_preserved :
    tailReachable WakerQueue.new ∧
    (∀ q w q', Reachable q → q.register w = some q' → tailReachable q') ∧
    (∀ q q' out, Reachable q → q.wake_all = some (q', out) → tailReachable q') := by
  refine ⟨?_, ?_, ?_⟩
  · intro t ht
    simp [WakerQueue.new] at ht
  · intro q w q' hq hreg
    obtain ⟨addrs, ws, hwf⟩ := reachable_wf q' (Reachable.register q q' w hq hreg)
    exact wf_tailReachable q' addrs ws hwf
  · intro q q' out hq hw
    obtain ⟨addrs, ws, hwf⟩ := reachable_wf q' (Reachable.wake q q' out hq hw)
    exact wf_tailReachable q' addrs ws hwf

theorem structural_invariant_preserved_witness :
    tailReachable WakerQueue.new ∧
    tailReachable ⟨some 0, some 0, [(0, ⟨none, some 9⟩)], 1⟩ :=
  ⟨structural_invariant_preserved.1,
   structural_invariant_preserved.2.1 WakerQueue.new 9
     ⟨some 0, some 0, [(0, ⟨none, some 9⟩)], 1⟩ Reachable.new (by decide)⟩

/-- Claim C10: tearing down a queue whose head and tail are both null deallocates
nothing, invokes no callback and does not panic — the assertion-failure branch is
not taken. -/
theorem drop_empty_queue_no_panic (q : WakerQueue) (hh : q.head = none)
    (ht : q.tail = none) :
    q.drop = some (DropResult.ok q.heap [] []) := by
  simp only [WakerQueue.drop]
  rw [hh, ht]
  simp [dropWalk]

theorem drop_empty_queue_no_panic_witness :
    WakerQueue.drop WakerQueue.new = some (DropResult.ok [] [] []) :=
  drop_empty_queue_no_panic WakerQueue.new rfl rfl
